import Mathlib

/-!
Verification of the `nameless` binding engine and its `lc_multi` example
(untyped lambda calculus with multibinders).

The crate root (`src/nameless/src/lib.rs`) only re-exports the engine
modules (`var`, `bind`, `bound_term`, ...), whose sources are not in the
repository snapshot; those operations are modelled from the specification.
The evaluator and substitution function are embedded from
`src/moniker/examples/lc_multi.rs`.
-/

namespace Nameless

/-- Modelled from the spec: an identifier (`FreeVar`/`GenId` in `var.rs`,
missing from the snapshot) is an abstract generated counter value plus an
optional display label used only for printing, never for equality. -/
structure FreeVar where
  id : Nat
  label : Option String
deriving Repr, DecidableEq

/-- Modelled from the spec: identifier equality is defined solely on the
generated counter value; the display label is ignored. -/
def fvarEq (a b : FreeVar) : Bool :=
  a.id == b.id

/-- Modelled from the spec: `generate(label?)` returns the current value of
the process-wide monotonically increasing counter (threaded here as an
explicit `Nat` state) and bumps it; generated ids are never reused. -/
def generate (label : Option String) (s : Nat) : FreeVar × Nat :=
  (⟨s, label⟩, s + 1)

/-- A sequence of `generate` calls, one per requested label, threading the
counter state. -/
def genMany : List (Option String) → Nat → List FreeVar × Nat
  | [], s => ([], s)
  | l :: ls, s =>
    let v := generate l s
    let vs := genMany ls v.2
    (v.1 :: vs.1, vs.2)

/-- The ids of a list of identifiers. -/
def idsOf (p : List FreeVar) : List Nat :=
  p.map FreeVar.id

/-- Modelled from the spec: freshening a pattern generates a brand-new
identifier for every name, preserving display labels and discarding
generation identity. -/
def freshen (p : List FreeVar) (s : Nat) : List FreeVar × Nat :=
  genMany (p.map FreeVar.label) s

/-- Modelled from the spec: a term-level variable (`Var` in `var.rs`) is
either a free identifier or a bound reference carrying a de Bruijn depth,
a slot among the names bound at that depth, and a display label. -/
inductive Var where
  | free (fv : FreeVar)
  | bound (depth : Nat) (slot : Nat) (label : Option String)
deriving Repr, DecidableEq

/-- First-occurrence position of an id in a pattern's ordered name list
(the slot mapping used by close). -/
def nameIndex : List FreeVar → Nat → Option Nat
  | [], _ => none
  | v :: vs, i => if v.id == i then some 0 else (nameIndex vs i).map (· + 1)

/-- Modelled from the spec: closing a variable at depth `s` against pattern
names `p` rewrites a free identifier occurring in `p` into a bound
reference `(s, slot)` keeping its label; everything else is unchanged. -/
def closeVar (s : Nat) (p : List FreeVar) : Var → Var
  | .free fv =>
    match nameIndex p fv.id with
    | some slot => .bound s slot fv.label
    | none => .free fv
  | .bound d sl l => .bound d sl l

/-- Modelled from the spec: opening a variable at depth `s` with the (already
freshened) pattern names `p` rewrites a bound reference at depth `s` into the
free identifier at its slot; references at other depths pass through. -/
def openVar (s : Nat) (p : List FreeVar) : Var → Var
  | .free fv => .free fv
  | .bound d sl l =>
    if d == s then
      match p[sl]? with
      | some fv => .free fv
      | none => .bound d sl l
    else .bound d sl l

/-- The `Expr` AST of `lc_multi.rs`: variables, lambda expressions with a
multibinder (`Scope<Vec<PVar<String>>, RcExpr>`, stored as its pattern and
its closed body), and application to a vector of arguments. -/
inductive Expr where
  | var (v : Var)
  | lam (pat : List FreeVar) (body : Expr)
  | app (fn : Expr) (args : List Expr)
deriving Repr

mutual

/-- Modelled from the spec: `close` replaces free occurrences of the
pattern's names with bound references; entering a nested binder's body
increments the depth; the nested binder's own pattern is untouched. -/
def closeExpr (s : Nat) (p : List FreeVar) : Expr → Expr
  | .var v => .var (closeVar s p v)
  | .lam q b => .lam q (closeExpr (s + 1) p b)
  | .app f as => .app (closeExpr s p f) (closeExprList s p as)

/-- `close` on a list of argument subterms. -/
def closeExprList (s : Nat) (p : List FreeVar) : List Expr → List Expr
  | [] => []
  | a :: as => closeExpr s p a :: closeExprList s p as

end

mutual

/-- Modelled from the spec: `open` replaces bound references at the current
depth with the pattern's (freshened) names; entering a nested binder's body
increments the depth. -/
def openExpr (s : Nat) (p : List FreeVar) : Expr → Expr
  | .var v => .var (openVar s p v)
  | .lam q b => .lam q (openExpr (s + 1) p b)
  | .app f as => .app (openExpr s p f) (openExprList s p as)

/-- `open` on a list of argument subterms. -/
def openExprList (s : Nat) (p : List FreeVar) : List Expr → List Expr
  | [] => []
  | a :: as => openExpr s p a :: openExprList s p as

end

/-- Modelled from the spec: alpha-equality of variables; free identifiers
compare by generated identity, bound references by depth and slot, labels
are ignored. -/
def vareq : Var → Var → Bool
  | .free a, .free b => fvarEq a b
  | .bound d1 s1 _, .bound d2 s2 _ => d1 == d2 && s1 == s2
  | _, _ => false

/-- Modelled from the spec: pattern equivalence for a multibinder pattern
(a vector of variable patterns): two variable patterns are equivalent
regardless of their underlying identifier, so only the shape (length)
matters. -/
def patternEq (p q : List FreeVar) : Bool :=
  p.length == q.length

mutual

/-- Modelled from the spec: structural alpha-equality on `Expr` following
the structural composition rule; a lambda compares its pattern with pattern
equivalence and its (closed) body with term alpha-equality. -/
def aeq : Expr → Expr → Bool
  | .var v1, .var v2 => vareq v1 v2
  | .lam p1 b1, .lam p2 b2 => patternEq p1 p2 && aeq b1 b2
  | .app f1 a1, .app f2 a2 => aeq f1 f2 && aeqList a1 a2
  | _, _ => false

/-- Pairwise alpha-equality on argument lists. -/
def aeqList : List Expr → List Expr → Bool
  | [], [] => true
  | a :: as, b :: bs => aeq a b && aeqList as bs
  | _, _ => false

end

/-- Modelled from the spec: a `Bind`/`Scope` pairs a pattern with a body
held in closed (locally nameless) form. -/
structure Binder where
  pattern : List FreeVar
  body : Expr
deriving Repr

/-- Modelled from the spec: `bind(pattern, body)` closes the body against
the pattern with a fresh zero-depth state. -/
def bind (p : List FreeVar) (t : Expr) : Binder :=
  ⟨p, closeExpr 0 p t⟩

/-- Modelled from the spec: `unbind` freshens every pattern name with the
global generator (threaded as an explicit counter) and opens the body with
the freshened pattern at a fresh zero-depth state. -/
def unbind (s : Nat) (b : Binder) : (List FreeVar × Expr) × Nat :=
  let fr := freshen b.pattern s
  ((fr.1, openExpr 0 fr.1 b.body), fr.2)

/-- `Scope::new` as used by `Expr::Lam` in `lc_multi.rs`: a lambda stores
its pattern together with the body closed against it. -/
def lamB (p : List FreeVar) (t : Expr) : Expr :=
  .lam p (closeExpr 0 p t)

/-- Renaming of free identifiers following the spec's wording of the
close/open inverse law: a free identifier at position `i` of pattern `p` is
replaced by the identifier at position `i` of pattern `q`; all other
variables are unchanged. -/
def renameVar (p q : List FreeVar) : Var → Var
  | .free fv =>
    match nameIndex p fv.id with
    | some i => .free (q.getD i fv)
    | none => .free fv
  | .bound d sl l => .bound d sl l

mutual

/-- Renaming of free identifiers (pattern `p`'s names to pattern `q`'s
corresponding names) throughout a term. -/
def renameExpr (p q : List FreeVar) : Expr → Expr
  | .var v => .var (renameVar p q v)
  | .lam r b => .lam r (renameExpr p q b)
  | .app f as => .app (renameExpr p q f) (renameExprList p q as)

/-- Renaming on a list of argument subterms. -/
def renameExprList (p q : List FreeVar) : List Expr → List Expr
  | [] => []
  | a :: as => renameExpr p q a :: renameExprList p q as

end

mutual

/-- Well-formedness under `j` enclosing binders: no dangling bound
reference, i.e. every bound reference under `k` further local binders has
depth strictly below `j + k` (the spec's invariant on well-formed terms). -/
def wfE (j : Nat) : Expr → Bool
  | .var (.free _) => true
  | .var (.bound d _ _) => decide (d < j)
  | .lam _ b => wfE (j + 1) b
  | .app f as => wfE j f && wfList j as

/-- Well-formedness of a list of argument subterms. -/
def wfList (j : Nat) : List Expr → Bool
  | [] => true
  | a :: as => wfE j a && wfList j as

end

mutual

/-- No bound reference in the term points exactly at ambient depth `s`
(the opening depth), counting local binders on the way down. -/
def avoidE (s : Nat) : Expr → Bool
  | .var (.free _) => true
  | .var (.bound d _ _) => decide (d ≠ s)
  | .lam _ b => avoidE (s + 1) b
  | .app f as => avoidE s f && avoidList s as

/-- `avoidE` on a list of argument subterms. -/
def avoidList (s : Nat) : List Expr → Bool
  | [] => true
  | a :: as => avoidE s a && avoidList s as

end

mutual

/-- All free identifiers in the term have id strictly below `s` (the term
predates counter state `s`). -/
def freeIdsBelow (s : Nat) : Expr → Bool
  | .var (.free fv) => decide (fv.id < s)
  | .var (.bound _ _ _) => true
  | .lam _ b => freeIdsBelow s b
  | .app f as => freeIdsBelow s f && freeIdsBelowList s as

/-- `freeIdsBelow` on a list of argument subterms. -/
def freeIdsBelowList (s : Nat) : List Expr → Bool
  | [] => true
  | a :: as => freeIdsBelow s a && freeIdsBelowList s as

end

mutual

/-- `RcExpr::substs` from `lc_multi.rs`: a free variable matching a mapping
key is replaced by the mapped expression; a lambda keeps its pattern
unchanged and substitutes in its stored body; an application substitutes in
the function and in every argument. -/
def substs (ms : List (FreeVar × Expr)) : Expr → Expr
  | .var (.free fv) =>
    match ms.find? (fun m => fvarEq fv m.1) with
    | some m => m.2
    | none => .var (.free fv)
  | .var (.bound d sl l) => .var (.bound d sl l)
  | .lam p b => .lam p (substs ms b)
  | .app f as => .app (substs ms f) (substsList ms as)

/-- `substs` on a list of argument subterms. -/
def substsList (ms : List (FreeVar × Expr)) : List Expr → List Expr
  | [] => []
  | a :: as => substs ms a :: substsList ms as

end

/-- Outcome of `eval` from `lc_multi.rs`: a normal form
(`Ok`), an `EvalError::ArgumentCountMismatch { expected, given }` (`Err`),
or a Rust panic (the `.unwrap()` on an argument's evaluation). -/
inductive Outcome where
  | ok (e : Expr)
  | mismatch (expected given : Nat)
  | panic
deriving Repr

mutual

/-- `eval` from `lc_multi.rs`, with explicit recursion fuel (`none` means
the fuel ran out) and the global generator counter threaded through.
Variables and lambdas are values; for an application, the function is
evaluated first (`?` propagates its error), a lambda is unbound (freshening
its pattern), the arity is checked, the arguments are evaluated with
`.unwrap()` (an inner error or panic becomes a panic), and the body with
arguments substituted for the fresh names is evaluated; a non-lambda
function value returns the original application unchanged. -/
def eval : Nat → Nat → Expr → Option (Outcome × Nat)
  | 0, _, _ => none
  | _ + 1, s, .var v => some (.ok (.var v), s)
  | _ + 1, s, .lam p b => some (.ok (.lam p b), s)
  | fuel + 1, s, .app f args =>
    match eval fuel s f with
    | none => none
    | some (.mismatch e g, s1) => some (.mismatch e g, s1)
    | some (.panic, s1) => some (.panic, s1)
    | some (.ok fv, s1) =>
      match fv with
      | .lam pat body =>
        let fr := freshen pat s1
        if fr.1.length ≠ args.length then
          some (.mismatch fr.1.length args.length, fr.2)
        else
          match evalArgs fuel fr.2 args with
          | none => none
          | some (none, s3) => some (.panic, s3)
          | some (some vs, s3) =>
            eval fuel s3 (substs (fr.1.zip vs) (openExpr 0 fr.1 body))
      | _ => some (.ok (.app f args), s1)

/-- Left-to-right evaluation of an argument list; an argument whose
evaluation returns an error or panics yields `some (none, _)` (the caller's
`.unwrap()` panic). -/
def evalArgs : Nat → Nat → List Expr → Option (Option (List Expr) × Nat)
  | _, s, [] => some (some [], s)
  | fuel + 1, s, a :: as =>
    match eval fuel s a with
    | none => none
    | some (.ok v, s1) =>
      match evalArgs fuel s1 as with
      | none => none
      | some (none, s2) => some (none, s2)
      | some (some vs, s2) => some (some (v :: vs), s2)
    | some (_, s1) => some (none, s1)
  | 0, _, _ :: _ => none

end

/-- Whether an expression is a lambda. -/
def Expr.isLam : Expr → Bool
  | .lam _ _ => true
  | _ => false

mutual

/-- The binding patterns of all lambda nodes of a term, in traversal
order. -/
def lamPatterns : Expr → List (List FreeVar)
  | .var _ => []
  | .lam p b => p :: lamPatterns b
  | .app f as => lamPatterns f ++ lamPatternsList as

/-- `lamPatterns` on a list of argument subterms. -/
def lamPatternsList : List Expr → List (List FreeVar)
  | [] => []
  | a :: as => lamPatterns a ++ lamPatternsList as

end

/-! Concrete identifiers and terms for the worked examples of
`lc_multi.rs` (`test_eval_const_lhs`, `test_eval_const_rhs`) and for the
failure scenarios. -/

/-- The identifier `x` of the worked example. -/
def xId : FreeVar := ⟨0, some "x"⟩

/-- The identifier `y` of the worked example. -/
def yId : FreeVar := ⟨1, some "y"⟩

/-- The identifier `a` of the worked example. -/
def aId : FreeVar := ⟨2, some "a"⟩

/-- The identifier `b` of the worked example. -/
def bId : FreeVar := ⟨3, some "b"⟩

/-- `test_eval_const_lhs`: `(fn(x, y) -> y)(a, b)`. -/
def exprConstLhs : Expr :=
  .app (lamB [xId, yId] (.var (.free yId)))
    [.var (.free aId), .var (.free bId)]

/-- `test_eval_const_rhs`: `(fn(x, y) -> x)(a, b)`. -/
def exprConstRhs : Expr :=
  .app (lamB [xId, yId] (.var (.free xId)))
    [.var (.free aId), .var (.free bId)]

/-- An argument whose own evaluation fails with an arity mismatch:
`(fn(y, a) -> y)(b)` built from the example identifiers. -/
def badArg : Expr :=
  .app (lamB [yId, aId] (.var (.free yId))) [.var (.free bId)]

/-- An application whose argument's evaluation fails:
`(fn(x) -> x)(badArg)`. -/
def exprPanic : Expr :=
  .app (lamB [xId] (.var (.free xId))) [badArg]

/-- The identity binder `bind([x], Var(x))` used as a concrete binder. -/
def binderX : Binder := bind [xId] (.var (.free xId))

/-! Alpha-equality is an equivalence relation: helper lemmas. -/

theorem vareq_refl (v : Var) : vareq v v = true := by
  cases v <;> simp [vareq, fvarEq]

theorem vareq_symm (v w : Var) (h : vareq v w = true) : vareq w v = true := by
  cases v <;> cases w <;> simp_all [vareq, fvarEq]

theorem vareq_trans (u v w : Var) (h1 : vareq u v = true)
    (h2 : vareq v w = true) : vareq u w = true := by
  cases u <;> cases v <;> cases w <;> simp_all [vareq, fvarEq]

mutual

theorem aeq_refl : ∀ e, aeq e e = true
  | .var v => by simp [aeq, vareq_refl]
  | .lam p b => by simp [aeq, patternEq, aeq_refl b]
  | .app f as => by simp [aeq, aeq_refl f, aeqList_refl as]

theorem aeqList_refl : ∀ es, aeqList es es = true
  | [] => by simp [aeqList]
  | a :: as => by simp [aeqList, aeq_refl a, aeqList_refl as]

end

mutual

theorem aeq_symm : ∀ a b, aeq a b = true → aeq b a = true
  | .var x, .var y, h => by
    simp only [aeq] at h ⊢
    exact vareq_symm x y h
  | .lam p1 b1, .lam p2 b2, h => by
    simp only [aeq, patternEq, Bool.and_eq_true, beq_iff_eq] at h ⊢
    exact ⟨h.1.symm, aeq_symm b1 b2 h.2⟩
  | .app f1 a1, .app f2 a2, h => by
    simp only [aeq, Bool.and_eq_true] at h ⊢
    exact ⟨aeq_symm f1 f2 h.1, aeqList_symm a1 a2 h.2⟩
  | .var _, .lam _ _, h => by simp [aeq] at h
  | .var _, .app _ _, h => by simp [aeq] at h
  | .lam _ _, .var _, h => by simp [aeq] at h
  | .lam _ _, .app _ _, h => by simp [aeq] at h
  | .app _ _, .var _, h => by simp [aeq] at h
  | .app _ _, .lam _ _, h => by simp [aeq] at h

theorem aeqList_symm : ∀ as bs, aeqList as bs = true → aeqList bs as = true
  | [], [], _ => by simp [aeqList]
  | a :: as, b :: bs, h => by
    simp only [aeqList, Bool.and_eq_true] at h ⊢
    exact ⟨aeq_symm a b h.1, aeqList_symm as bs h.2⟩
  | [], _ :: _, h => by simp [aeqList] at h
  | _ :: _, [], h => by simp [aeqList] at h

end

mutual

theorem aeq_trans : ∀ a b c, aeq a b = true → aeq b c = true → aeq a c = true
  | .var x, .var y, .var z, h1, h2 => by
    simp only [aeq] at h1 h2 ⊢
    exact vareq_trans x y z h1 h2
  | .lam p1 b1, .lam p2 b2, .lam p3 b3, h1, h2 => by
    simp only [aeq, patternEq, Bool.and_eq_true, beq_iff_eq] at h1 h2 ⊢
    exact ⟨h1.1.trans h2.1, aeq_trans b1 b2 b3 h1.2 h2.2⟩
  | .app f1 a1, .app f2 a2, .app f3 a3, h1, h2 => by
    simp only [aeq, Bool.and_eq_true] at h1 h2 ⊢
    exact ⟨aeq_trans f1 f2 f3 h1.1 h2.1, aeqList_trans a1 a2 a3 h1.2 h2.2⟩
  | .var _, .lam _ _, _, h1, _ => by simp [aeq] at h1
  | .var _, .app _ _, _, h1, _ => by simp [aeq] at h1
  | .lam _ _, .var _, _, h1, _ => by simp [aeq] at h1
  | .lam _ _, .app _ _, _, h1, _ => by simp [aeq] at h1
  | .app _ _, .var _, _, h1, _ => by simp [aeq] at h1
  | .app _ _, .lam _ _, _, h1, _ => by simp [aeq] at h1
  | .var _, .var _, .lam _ _, _, h2 => by simp [aeq] at h2
  | .var _, .var _, .app _ _, _, h2 => by simp [aeq] at h2
  | .lam _ _, .lam _ _, .var _, _, h2 => by simp [aeq] at h2
  | .lam _ _, .lam _ _, .app _ _, _, h2 => by simp [aeq] at h2
  | .app _ _, .app _ _, .var _, _, h2 => by simp [aeq] at h2
  | .app _ _, .app _ _, .lam _ _, _, h2 => by simp [aeq] at h2

theorem aeqList_trans : ∀ as bs cs, aeqList as bs = true → aeqList bs cs = true →
    aeqList as cs = true
  | [], [], [], _, _ => by simp [aeqList]
  | a :: as, b :: bs, c :: cs, h1, h2 => by
    simp only [aeqList, Bool.and_eq_true] at h1 h2 ⊢
    exact ⟨aeq_trans a b c h1.1 h2.1, aeqList_trans as bs cs h1.2 h2.2⟩
  | [], _ :: _, _, h1, _ => by simp [aeqList] at h1
  | _ :: _, [], _, h1, _ => by simp [aeqList] at h1
  | [], [], _ :: _, _, h2 => by simp [aeqList] at h2
  | _ :: _, _ :: _, [], _, h2 => by simp [aeqList] at h2

end

/-! Properties of the generator. -/

theorem genMany_ids (ls : List (Option String)) (s : Nat) :
    idsOf (genMany ls s).1 = List.range' s ls.length := by
  induction ls generalizing s with
  | nil => simp [genMany, idsOf]
  | cons l ls ih =>
    simp [genMany, generate, idsOf, List.range'] at ih ⊢
    exact ih (s + 1)

theorem genMany_counter (ls : List (Option String)) (s : Nat) :
    (genMany ls s).2 = s + ls.length := by
  induction ls generalizing s with
  | nil => simp [genMany]
  | cons l ls ih => simp [genMany, generate, ih (s + 1)]; omega

theorem genMany_length (ls : List (Option String)) (s : Nat) :
    (genMany ls s).1.length = ls.length := by
  have h := genMany_ids ls s
  have h1 : (idsOf (genMany ls s).1).length = (genMany ls s).1.length := by
    simp [idsOf]
  rw [h] at h1
  simpa [List.length_range'] using h1.symm

theorem freshen_length (p : List FreeVar) (s : Nat) :
    (freshen p s).1.length = p.length := by
  simpa [freshen] using genMany_length (p.map FreeVar.label) s

theorem freshen_counter (p : List FreeVar) (s : Nat) :
    (freshen p s).2 = s + p.length := by
  simpa [freshen] using genMany_counter (p.map FreeVar.label) s

theorem freshen_ids (p : List FreeVar) (s : Nat) :
    idsOf (freshen p s).1 = List.range' s p.length := by
  simpa [freshen] using genMany_ids (p.map FreeVar.label) s

theorem freshen_mem_id (p : List FreeVar) (s : Nat) (v : FreeVar)
    (h : v ∈ (freshen p s).1) : s ≤ v.id ∧ v.id < s + p.length := by
  have hm : v.id ∈ idsOf (freshen p s).1 := List.mem_map_of_mem FreeVar.id h
  rw [freshen_ids] at hm
  exact List.mem_range'_1.mp hm

theorem freshen_ids_nodup (p : List FreeVar) (s : Nat) :
    (idsOf (freshen p s).1).Nodup := by
  rw [freshen_ids]
  exact List.nodup_range' s p.length 1 (by omega)

/-! Properties of the slot mapping. -/

theorem nameIndex_lt (p : List FreeVar) (i k : Nat) (h : nameIndex p i = some k) :
    k < p.length := by
  induction p generalizing k with
  | nil => simp [nameIndex] at h
  | cons v vs ih =>
    simp only [nameIndex] at h
    by_cases hv : (v.id == i) = true
    · simp [hv] at h
      simp [List.length_cons]
      omega
    · simp [hv] at h
      obtain ⟨k', hk', rfl⟩ := h
      have := ih k' hk'
      simp [List.length_cons]
      omega

theorem nameIndex_none (p : List FreeVar) (i : Nat) (h : ∀ v ∈ p, v.id ≠ i) :
    nameIndex p i = none := by
  induction p with
  | nil => simp [nameIndex]
  | cons v vs ih =>
    have hv : v.id ≠ i := h v (List.mem_cons_self v vs)
    simp [nameIndex, hv, ih fun w hw => h w (List.mem_cons_of_mem v hw)]

theorem nameIndex_nodup_get (p : List FreeVar) (k : Nat) (hk : k < p.length)
    (hnd : (idsOf p).Nodup) : nameIndex p (p[k].id) = some k := by
  induction p generalizing k with
  | nil => simp at hk
  | cons v vs ih =>
    cases k with
    | zero => simp [nameIndex]
    | succ k' =>
      have hk' : k' < vs.length := by simpa using hk
      have hnd' : (idsOf vs).Nodup := (List.nodup_cons.mp hnd).2
      have hne : v.id ≠ vs[k'].id := by
        have hvm : vs[k'].id ∈ idsOf vs :=
          List.mem_map_of_mem FreeVar.id (vs.getElem_mem hk')
        intro hEq
        exact (List.nodup_cons.mp hnd).1 (hEq ▸ hvm)
      simp only [nameIndex, List.getElem_cons_succ]
      simp [hne, ih k' hk' hnd']

theorem getD_of_lt (l : List FreeVar) (i : Nat) (d : FreeVar) (h : i < l.length) :
    l.getD i d = l[i] := by
  simp [List.getD, List.getElem?_eq_getElem h]

/-! The close/open inverse law, at the level of variables and terms. -/

theorem openVar_closeVar (p q : List FreeVar) (hl : p.length = q.length)
    (v : Var) (s : Nat) (hv : ∀ d sl l, v = .bound d sl l → d ≠ s) :
    openVar s q (closeVar s p v) = renameVar p q v := by
  cases v with
  | free fv =>
    cases hi : nameIndex p fv.id with
    | none => simp [closeVar, openVar, renameVar, hi]
    | some k =>
      have hk : k < q.length := hl ▸ nameIndex_lt p fv.id k hi
      simp [closeVar, openVar, renameVar, hi, List.getElem?_eq_getElem hk,
        getD_of_lt q k fv hk]
  | bound d sl l =>
    have hd : d ≠ s := hv d sl l rfl
    simp [closeVar, openVar, renameVar, hd]

mutual

theorem openExpr_closeExpr (p q : List FreeVar) (hl : p.length = q.length) :
    ∀ e s, avoidE s e = true → openExpr s q (closeExpr s p e) = renameExpr p q e
  | .var v, s, h => by
    simp only [closeExpr, openExpr, renameExpr]
    refine congrArg Expr.var (openVar_closeVar p q hl v s ?_)
    intro d sl l hv
    subst hv
    simpa [avoidE] using h
  | .lam r b, s, h => by
    simp only [closeExpr, openExpr, renameExpr]
    exact congrArg (Expr.lam r)
      (openExpr_closeExpr p q hl b (s + 1) (by simpa [avoidE] using h))
  | .app f as, s, h => by
    simp only [avoidE, Bool.and_eq_true] at h
    simp only [closeExpr, openExpr, renameExpr]
    exact congrArg₂ Expr.app
      (openExpr_closeExpr p q hl f s h.1)
      (openExprList_closeExprList p q hl as s h.2)

theorem openExprList_closeExprList (p q : List FreeVar) (hl : p.length = q.length) :
    ∀ as s, avoidList s as = true →
      openExprList s q (closeExprList s p as) = renameExprList p q as
  | [], _, _ => rfl
  | a :: as, s, h => by
    simp only [avoidList, Bool.and_eq_true] at h
    simp only [closeExprList, openExprList, renameExprList]
    exact congrArg₂ List.cons
      (openExpr_closeExpr p q hl a s h.1)
      (openExprList_closeExprList p q hl as s h.2)

end

mutual

theorem avoidE_of_wfE : ∀ e j s, j ≤ s → wfE j e = true → avoidE s e = true
  | .var (.free _), _, _, _, _ => rfl
  | .var (.bound d sl l), j, s, hjs, h => by
    simp only [wfE, decide_eq_true_eq] at h
    simp only [avoidE, decide_eq_true_eq]
    omega
  | .lam r b, j, s, hjs, h => by
    simp only [wfE] at h
    simp only [avoidE]
    exact avoidE_of_wfE b (j + 1) (s + 1) (by omega) h
  | .app f as, j, s, hjs, h => by
    simp only [wfE, Bool.and_eq_true] at h
    simp only [avoidE, Bool.and_eq_true]
    exact ⟨avoidE_of_wfE f j s hjs h.1, avoidList_of_wfList as j s hjs h.2⟩

theorem avoidList_of_wfList : ∀ as j s, j ≤ s → wfList j as = true →
    avoidList s as = true
  | [], _, _, _, _ => rfl
  | a :: as, j, s, hjs, h => by
    simp only [wfList, Bool.and_eq_true] at h
    simp only [avoidList, Bool.and_eq_true]
    exact ⟨avoidE_of_wfE a j s hjs h.1, avoidList_of_wfList as j s hjs h.2⟩

end

/-! Renaming one freshened pattern to another commutes with opening:
needed for the round-trip freshness property. -/

theorem renameVar_openVar (p q : List FreeVar) (s : Nat)
    (hl : p.length = q.length) (hnd : (idsOf p).Nodup)
    (hp : ∀ v ∈ p, s ≤ v.id) (v : Var) (d : Nat)
    (hv : ∀ fv, v = .free fv → fv.id < s) :
    renameVar p q (openVar d p v) = openVar d q v := by
  cases v with
  | free fv =>
    have hfv : fv.id < s := hv fv rfl
    have hni : nameIndex p fv.id = none := by
      refine nameIndex_none p fv.id ?_
      intro w hw
      have := hp w hw
      omega
    simp [openVar, renameVar, hni]
  | bound d' sl l =>
    by_cases hd : (d' == d) = true
    · by_cases hsl : sl < p.length
      · have hslq : sl < q.length := hl ▸ hsl
        have hni : nameIndex p (p[sl].id) = some sl := nameIndex_nodup_get p sl hsl hnd
        simp [openVar, hd, List.getElem?_eq_getElem hsl, List.getElem?_eq_getElem hslq,
          renameVar, hni, getD_of_lt q sl (p[sl]) hslq]
      · have hq : ¬ sl < q.length := hl ▸ hsl
        have hpn : p[sl]? = none := by
          simp [List.getElem?_eq_none, Nat.le_of_not_lt hsl]
        have hqn : q[sl]? = none := by
          simp [List.getElem?_eq_none, Nat.le_of_not_lt hq]
        simp [openVar, hd, hpn, hqn, renameVar]
    · simp [openVar, hd, renameVar]

mutual

theorem renameExpr_openExpr (p q : List FreeVar) (s : Nat)
    (hl : p.length = q.length) (hnd : (idsOf p).Nodup)
    (hp : ∀ v ∈ p, s ≤ v.id) :
    ∀ e d, freeIdsBelow s e = true →
      renameExpr p q (openExpr d p e) = openExpr d q e
  | .var v, d, h => by
    simp only [openExpr, renameExpr]
    refine congrArg Expr.var (renameVar_openVar p q s hl hnd hp v d ?_)
    intro fv hfv
    subst hfv
    simpa [freeIdsBelow] using h
  | .lam r b, d, h => by
    simp only [openExpr, renameExpr]
    exact congrArg (Expr.lam r)
      (renameExpr_openExpr p q s hl hnd hp b (d + 1) (by simpa [freeIdsBelow] using h))
  | .app f as, d, h => by
    simp only [freeIdsBelow, Bool.and_eq_true] at h
    simp only [openExpr, renameExpr]
    exact congrArg₂ Expr.app
      (renameExpr_openExpr p q s hl hnd hp f d h.1)
      (renameExprList_openExprList p q s hl hnd hp as d h.2)

theorem renameExprList_openExprList (p q : List FreeVar) (s : Nat)
    (hl : p.length = q.length) (hnd : (idsOf p).Nodup)
    (hp : ∀ v ∈ p, s ≤ v.id) :
    ∀ as d, freeIdsBelowList s as = true →
      renameExprList p q (openExprList d p as) = openExprList d q as
  | [], _, _ => rfl
  | a :: as, d, h => by
    simp only [freeIdsBelowList, Bool.and_eq_true] at h
    simp only [openExprList, renameExprList]
    exact congrArg₂ List.cons
      (renameExpr_openExpr p q s hl hnd hp a d h.1)
      (renameExprList_openExprList p q s hl hnd hp as d h.2)

end

/-! ### Claim theorems -/

/-- C5: `alpha_equal` is an equivalence relation on terms of the shape
grammar: reflexive, symmetric, and transitive. -/
theorem alpha_equal_equivalence :
    (∀ a, aeq a a = true) ∧
    (∀ a b, aeq a b = true → aeq b a = true) ∧
    (∀ a b c, aeq a b = true → aeq b c = true → aeq a c = true) :=
  ⟨aeq_refl, aeq_symm, aeq_trans⟩

/-- Witness for C5: transitivity applied to three concretely alpha-equal
lambda terms with pairwise different bound names. -/
theorem alpha_equal_equivalence_witness :
    aeq (lamB [xId] (.var (.free xId))) (lamB [aId] (.var (.free aId))) = true :=
  alpha_equal_equivalence.2.2 (lamB [xId] (.var (.free xId)))
    (lamB [yId] (.var (.free yId))) (lamB [aId] (.var (.free aId))) rfl rfl

mutual

theorem lamPatterns_substs (ms : List (FreeVar × Expr)) :
    ∀ e, (lamPatterns e).Sublist (lamPatterns (substs ms e))
  | .var (.free fv) => by
    simp only [lamPatterns]
    exact List.nil_sublist _
  | .var (.bound d sl l) => by
    simp only [lamPatterns]
    exact List.nil_sublist _
  | .lam p b => by
    simp only [substs, lamPatterns]
    exact List.Sublist.cons₂ p (lamPatterns_substs ms b)
  | .app f as => by
    simp only [substs, lamPatterns]
    exact List.Sublist.append (lamPatterns_substs ms f) (lamPatternsList_substs ms as)

theorem lamPatternsList_substs (ms : List (FreeVar × Expr)) :
    ∀ as, (lamPatternsList as).Sublist (lamPatternsList (substsList ms as))
  | [] => by simp [substsList, lamPatternsList]
  | a :: as => by
    simp only [substsList, lamPatternsList]
    exact List.Sublist.append (lamPatterns_substs ms a) (lamPatternsList_substs ms as)

end

/-- C10: `substs` maps a lambda to a lambda with the identical pattern and
the substituted body (no unbinding), and recursively every lambda pattern
of the original term survives unchanged (in order) in the result. -/
theorem substs_lam_preserves_pattern :
    (∀ ms p b, substs ms (Expr.lam p b) = Expr.lam p (substs ms b)) ∧
    (∀ ms e, (lamPatterns e).Sublist (lamPatterns (substs ms e))) :=
  ⟨fun _ _ _ => rfl, lamPatterns_substs⟩

/-- C9: when the function part of an application evaluates to a non-lambda,
`eval` returns `Ok` with the original application unchanged (the evaluated
function value is discarded, the arguments stay unevaluated), threading the
counter state left by the function's evaluation. -/
theorem eval_app_nonlam (fuel s : Nat) (f : Expr) (args : List Expr) (o : Expr)
    (s1 : Nat) (h : eval fuel s f = some (.ok o, s1)) (ho : o.isLam = false) :
    eval (fuel + 1) s (.app f args) = some (.ok (.app f args), s1) := by
  simp only [eval, h]
  cases o with
  | var v => rfl
  | lam p b => simp [Expr.isLam] at ho
  | app g bs => rfl

/-- Witness for C9: applying a variable to an argument returns the
application unchanged. -/
theorem eval_app_nonlam_witness :
    eval 2 0 (.app (.var (.free aId)) [.var (.free bId)]) =
      some (.ok (.app (.var (.free aId)) [.var (.free bId)]), 0) :=
  eval_app_nonlam 1 0 (.var (.free aId)) [.var (.free bId)] (.var (.free aId)) 0
    rfl rfl

/-- C4: applying a lambda whose pattern contributes `n` names to `m ≠ n`
arguments returns an `ArgumentCountMismatch` error with `expected = n` and
`given = m` (no truncation or padding; the counter reflects the freshening
done by `unbind` before the check). -/
theorem eval_arity_mismatch (fuel s : Nat) (pat : List FreeVar) (body : Expr)
    (args : List Expr) (h : pat.length ≠ args.length) :
    eval (fuel + 1 + 1) s (.app (.lam pat body) args) =
      some (.mismatch pat.length args.length, s + pat.length) := by
  have hl := freshen_length pat s
  have hc := freshen_counter pat s
  simp only [eval, hl, hc]
  simp [h]

/-- Witness for C4: a two-name lambda applied to three arguments yields
`ArgumentCountMismatch { expected := 2, given := 3 }`. -/
theorem eval_arity_mismatch_witness :
    eval 2 10 (.app (.lam [xId, yId] (.var (.bound 0 1 (some "y"))))
        [.var (.free aId), .var (.free bId), .var (.free aId)]) =
      some (.mismatch 2 3, 12) :=
  eval_arity_mismatch 0 10 [xId, yId] (.var (.bound 0 1 (some "y")))
    [.var (.free aId), .var (.free bId), .var (.free aId)] (by decide)

/-- C8: a closed input on which `eval` panics: the argument `badArg` itself
evaluates to an `ArgumentCountMismatch` error, and the enclosing
application's `.unwrap()` of that inner `Err` makes the whole evaluation
panic instead of returning the error. -/
theorem eval_panics_on_failing_argument :
    eval 10 5 badArg = some (.mismatch 2 1, 7) ∧
    eval 10 5 exprPanic = some (.panic, 8) :=
  ⟨rfl, rfl⟩

/-- C3: beta-reducing the worked example
`App(Lam(bind([x, y], Var(y))), [Var(a), Var(b)])` yields a term
alpha-equal to `Var(b)`, and with body `Var(x)` it yields a term
alpha-equal to `Var(a)`: the multibinder selects the matching slot. -/
theorem eval_multibinder_example :
    (∃ t s1, eval 10 4 exprConstLhs = some (.ok t, s1) ∧
      aeq t (.var (.free bId)) = true) ∧
    (∃ t s1, eval 10 4 exprConstRhs = some (.ok t, s1) ∧
      aeq t (.var (.free aId)) = true) :=
  ⟨⟨.var (.free bId), 6, rfl, rfl⟩, ⟨.var (.free aId), 6, rfl, rfl⟩⟩

/-- C1: for a pattern-equivalent replacement pattern `q`, any state `s0`,
and any dangling-free body term `t` (free identifiers drawn from `p`'s
names or outer scopes), `open(close(t, p, s0), q, s0)` is alpha-equal to
`t` with `p`'s names replaced positionally by `q`'s names. -/
theorem close_open_inverse (p q : List FreeVar) (t : Expr) (s0 : Nat)
    (hp : patternEq p q = true) (hw : wfE 0 t = true) :
    aeq (openExpr s0 q (closeExpr s0 p t)) (renameExpr p q t) = true := by
  rw [openExpr_closeExpr p q (by simpa [patternEq] using hp) t s0
    (avoidE_of_wfE t 0 s0 (Nat.zero_le s0) hw)]
  exact aeq_refl _

/-- Witness for C1: closing then opening a body that uses the pattern's
name `x`, an outer-scope name `a`, and a nested binder, at state 3. -/
theorem close_open_inverse_witness :
    aeq (openExpr 3 [bId]
        (closeExpr 3 [xId]
          (.app (.var (.free xId))
            [.var (.free aId), lamB [yId] (.var (.free xId))])))
      (renameExpr [xId] [bId]
        (.app (.var (.free xId))
          [.var (.free aId), lamB [yId] (.var (.free xId))])) = true :=
  close_open_inverse [xId] [bId]
    (.app (.var (.free xId)) [.var (.free aId), lamB [yId] (.var (.free xId))])
    3 rfl rfl

/-- C2 counterexample: on the binder `bind([x], Var(x))`, the two bodies
returned by two successive `unbind` calls carry the distinct fresh
identifiers 1 and 2, and are therefore not alpha-equal as the claim
states. -/
theorem unbind_twice_counterexample :
    (unbind 1 binderX).1.2 = .var (.free ⟨1, some "x"⟩) ∧
    (unbind (unbind 1 binderX).2 binderX).1.2 = .var (.free ⟨2, some "x"⟩) ∧
    aeq (unbind 1 binderX).1.2 (unbind (unbind 1 binderX).2 binderX).1.2 = false :=
  ⟨rfl, rfl, rfl⟩

/-- C2 (amended): calling `unbind` twice on a binder, from a counter state
`s` fresh for the binder's body, yields freshened patterns whose generated
identifiers are pairwise distinct, and bodies that are alpha-equal up to
the substitution of the first call's fresh names by the second call's
corresponding fresh names. -/
theorem unbind_twice_fresh (b : Binder) (s : Nat)
    (hs : freeIdsBelow s b.body = true) :
    (∀ v1 ∈ (unbind s b).1.1, ∀ v2 ∈ (unbind (unbind s b).2 b).1.1,
      v1.id ≠ v2.id) ∧
    aeq (renameExpr (unbind s b).1.1 (unbind (unbind s b).2 b).1.1
          (unbind s b).1.2)
        (unbind (unbind s b).2 b).1.2 = true := by
  have hcount : (unbind s b).2 = s + b.pattern.length := by
    simp [unbind, freshen_counter]
  constructor
  · intro v1 h1 v2 h2
    have hb1 : s ≤ v1.id ∧ v1.id < s + b.pattern.length :=
      freshen_mem_id b.pattern s v1 (by simpa [unbind] using h1)
    have hb2 : (unbind s b).2 ≤ v2.id ∧
        v2.id < (unbind s b).2 + b.pattern.length :=
      freshen_mem_id b.pattern (unbind s b).2 v2 (by simpa [unbind] using h2)
    rw [hcount] at hb2
    omega
  · have hlen : (freshen b.pattern s).1.length =
        (freshen b.pattern (unbind s b).2).1.length := by
      rw [freshen_length, freshen_length]
    have hnd := freshen_ids_nodup b.pattern s
    have hge : ∀ v ∈ (freshen b.pattern s).1, s ≤ v.id := by
      intro v hv
      exact (freshen_mem_id b.pattern s v hv).1
    have hr := renameExpr_openExpr (freshen b.pattern s).1
      (freshen b.pattern (unbind s b).2).1 s hlen hnd hge b.body 0 hs
    simp only [unbind] at hr ⊢
    rw [hr]
    exact aeq_refl _

/-- Witness for C2 (amended): the identity binder `bind([x], Var(x))` from
counter state 1. -/
theorem unbind_twice_fresh_witness :
    (∀ v1 ∈ (unbind 1 binderX).1.1,
      ∀ v2 ∈ (unbind (unbind 1 binderX).2 binderX).1.1, v1.id ≠ v2.id) ∧
    aeq (renameExpr (unbind 1 binderX).1.1
          (unbind (unbind 1 binderX).2 binderX).1.1 (unbind 1 binderX).1.2)
        (unbind (unbind 1 binderX).2 binderX).1.2 = true :=
  unbind_twice_fresh binderX 1 rfl

/-- C6: binding the ordered names `[x, y, z]` assigns slot 0 to `x`, slot 1
to `y`, and slot 2 to `z`, and opening assigns slot `i` the `i`-th name of
the supplied pattern, for every choice of (pairwise distinct)
identifiers. -/
theorem slot_determinism (x y z : FreeVar) (hxy : x.id ≠ y.id)
    (hxz : x.id ≠ z.id) (hyz : y.id ≠ z.id) :
    (bind [x, y, z] (.app (.var (.free x))
        [.var (.free y), .var (.free z)])).body =
      .app (.var (.bound 0 0 x.label))
        [.var (.bound 0 1 y.label), .var (.bound 0 2 z.label)] ∧
    ∀ x' y' z' : FreeVar,
      openExpr 0 [x', y', z']
          (.app (.var (.bound 0 0 x.label))
            [.var (.bound 0 1 y.label), .var (.bound 0 2 z.label)]) =
        .app (.var (.free x')) [.var (.free y'), .var (.free z')] := by
  constructor
  · have h1 : (x.id == y.id) = false := by simpa using hxy
    have h2 : (x.id == z.id) = false := by simpa using hxz
    have h3 : (y.id == z.id) = false := by simpa using hyz
    simp [bind, closeExpr, closeExprList, closeVar, nameIndex, h1, h2, h3]
  · intro x' y' z'
    rfl

/-- Witness for C6: the concrete identifiers `x`, `y`, `a` (distinct ids
0, 1, 2). -/
theorem slot_determinism_witness :
    (bind [xId, yId, aId] (.app (.var (.free xId))
        [.var (.free yId), .var (.free aId)])).body =
      .app (.var (.bound 0 0 xId.label))
        [.var (.bound 0 1 yId.label), .var (.bound 0 2 aId.label)] ∧
    ∀ x' y' z' : FreeVar,
      openExpr 0 [x', y', z']
          (.app (.var (.bound 0 0 xId.label))
            [.var (.bound 0 1 yId.label), .var (.bound 0 2 aId.label)]) =
        .app (.var (.free x')) [.var (.free y'), .var (.free z')] :=
  slot_determinism xId yId aId (by decide) (by decide) (by decide)

/-- C7: `generate` returns the current counter and bumps it, so each
generated id is strictly greater than every previously generated id; a run
of generations produces exactly the ids `s0, s0+1, ...` (pairwise
distinct, never reused, all below the final counter); identifier equality
is defined solely on the counter value, so identifiers with identical
labels are unequal unless they share the underlying id. -/
theorem generate_monotone_fresh :
    (∀ label s, (generate label s).1.id = s ∧ (generate label s).2 = s + 1) ∧
    (∀ label s prev, prev < s → prev < (generate label s).1.id) ∧
    (∀ ls s0, idsOf (genMany ls s0).1 = List.range' s0 ls.length ∧
      (idsOf (genMany ls s0).1).Nodup ∧
      ∀ i ∈ idsOf (genMany ls s0).1, s0 ≤ i ∧ i < (genMany ls s0).2) ∧
    (∀ a b : FreeVar, fvarEq a b = true ↔ a.id = b.id) ∧
    (∀ a b : FreeVar, a.label = b.label → a.id ≠ b.id → fvarEq a b = false) := by
  refine ⟨fun label s => ⟨rfl, rfl⟩, fun label s prev h => h, ?_, ?_, ?_⟩
  · intro ls s0
    refine ⟨genMany_ids ls s0, ?_, ?_⟩
    · rw [genMany_ids]
      exact List.nodup_range' s0 ls.length 1 (by omega)
    · intro i hi
      rw [genMany_ids] at hi
      have := List.mem_range'_1.mp hi
      rw [genMany_counter]
      omega
  · intro a b
    simp [fvarEq]
  · intro a b _ hne
    simp [fvarEq, hne]

/-- Witness for C7: two identifiers labelled `"x"` with ids 5 and 6 are
unequal, and the other components at concrete inputs. -/
theorem generate_monotone_fresh_witness :
    fvarEq ⟨5, some "x"⟩ ⟨6, some "x"⟩ = false :=
  generate_monotone_fresh.2.2.2.2 ⟨5, some "x"⟩ ⟨6, some "x"⟩ rfl (by decide)

end Nameless
